import Mathlib

/-!
Verification of the preprocessing pipeline in
`src/preprocessing/automate_Karinda-Amelia.py` (`preprocess_data`).

The pipeline is shallowly embedded over exact rationals.  A table is an
ordered list of column names together with an ordered list of rows; each
row is an association list from column name to cell value, and a cell is
a rational number, a string, or missing (pandas `NaN`/`NaT`).

Each stage of `preprocess_data` is one Lean definition:
  stage 1  `dropEmptyCols`     -- `data.dropna(axis=1, how="all")`
  stage 2  `dropnaRows`        -- `data.dropna()`
  stage 3  `dropDuplicates`    -- `data.drop_duplicates()`
  stage 4  `clipStage`         -- IQR clipping with linear-interpolation quantiles
  stage 5  `dateStage`         -- day-first date parsing and the five derived columns
  stage 6  `encodeStage`       -- per-column `LabelEncoder.fit_transform`
  stage 7  `standardizeStage`  -- `StandardScaler.fit_transform`

Floating-point arithmetic is modelled by exact rational arithmetic.  The
only operation that leaves the rationals is the square root inside
`StandardScaler`; the pipeline therefore takes the square-root function
as a parameter `sqrtFn`, and theorems about standardized values assume
`sqrtFn` is exact on the variances that actually occur (witnesses pick
inputs whose variances are perfect squares, where the model is exact).
-/

unseal Rat.add Rat.mul Rat.sub Rat.inv Rat.ofScientific

/-- A cell of the table: a number (int/float dtype), a string (object
dtype), or a missing value (`NaN` / `NaT`). -/
inductive Value where
  | num (q : ℚ)
  | str (s : String)
  | missing
deriving DecidableEq, Repr

namespace Value

def isMissing : Value → Bool
  | .missing => true
  | _ => false

def isNum : Value → Bool
  | .num _ => true
  | _ => false

def isStr : Value → Bool
  | .str _ => true
  | _ => false

def asNum : Value → Option ℚ
  | .num q => some q
  | _ => none

def asStr : Value → Option String
  | .str s => some s
  | _ => none

end Value

/-- A row: association list from column name to cell value.  Stages keep
rows in canonical form (one entry per column, in column order). -/
abbrev Row := List (String × Value)

/-- A table: ordered column names and ordered rows (a pandas DataFrame). -/
structure Table where
  cols : List String
  rows : List Row
deriving DecidableEq, Repr

/-- Cell of a row under a column name; absent keys read as missing. -/
def getCell (r : Row) (c : String) : Value := (r.lookup c).getD .missing

/-- Build a canonical row over columns `cs` with cell `f c` at column `c`. -/
def mkRow (cs : List String) (f : String → Value) : Row :=
  cs.map (fun c => (c, f c))

/-- The values of column `c`, top to bottom. -/
def colValues (t : Table) (c : String) : List Value :=
  t.rows.map (fun r => getCell r c)

/-- The non-missing numeric values of column `c` (what pandas/sklearn
statistics are computed over). -/
def colNums (t : Table) (c : String) : List ℚ :=
  (colValues t c).filterMap Value.asNum

/-- The string values of column `c`. -/
def colStrs (t : Table) (c : String) : List String :=
  (colValues t c).filterMap Value.asStr

/-- Column `c` has numeric dtype: every cell is a number or missing
(an all-missing column is float dtype in pandas, hence numeric). -/
def isNumCol (t : Table) (c : String) : Bool :=
  (colValues t c).all (fun v => v.isNum || v.isMissing)

/-- Column `c` has object (textual) dtype: some cell is a string. -/
def isStrCol (t : Table) (c : String) : Bool :=
  (colValues t c).any (fun v => v.isStr)

/-- Cell at row index `i`, column `c`. -/
def cellAt (t : Table) (i : ℕ) (c : String) : Value :=
  getCell (t.rows.getD i []) c

/-! ### Stage 1: `data.dropna(axis=1, how="all")` — drop fully-missing columns -/

/-- Columns kept by stage 1: those with at least one non-missing value. -/
def keptCols (t : Table) : List String :=
  t.cols.filter (fun c => t.rows.any (fun r => !(getCell r c).isMissing))

/-- Stage 1: drop every column whose values are all missing, and
canonicalize rows to the remaining columns. -/
def dropEmptyCols (t : Table) : Table :=
  ⟨keptCols t, t.rows.map (fun r => mkRow (keptCols t) (getCell r))⟩

/-! ### Stage 2: `data.dropna()` — drop rows containing a missing value -/

def rowComplete (cs : List String) (r : Row) : Bool :=
  cs.all (fun c => !(getCell r c).isMissing)

/-- Stage 2: drop every row that has a missing value in any column. -/
def dropnaRows (t : Table) : Table :=
  ⟨t.cols, t.rows.filter (rowComplete t.cols)⟩

/-- Index of the first occurrence of `a` in a list (length of the list
if absent). -/
def firstIdx {α : Type _} [DecidableEq α] (a : α) : List α → ℕ
  | [] => 0
  | x :: xs => if x = a then 0 else firstIdx a xs + 1

/-! ### Stage 3: `data.drop_duplicates()` — keep first occurrences -/

/-- Deduplication keeping the first occurrence of each element, in
order, with an accumulator of elements already seen (pandas
`drop_duplicates(keep="first")`). -/
def dedupFirstAux {α : Type _} [DecidableEq α] (seen : List α) :
    List α → List α
  | [] => []
  | x :: xs =>
    if x ∈ seen then dedupFirstAux seen xs
    else x :: dedupFirstAux (x :: seen) xs

/-- Deduplication keeping the first occurrence of each element. -/
def dedupFirst {α : Type _} [DecidableEq α] (l : List α) : List α :=
  dedupFirstAux [] l

/-- Stage 3: remove exact duplicate rows, keeping first occurrences. -/
def dropDuplicates (t : Table) : Table :=
  ⟨t.cols, dedupFirst t.rows⟩

/-! ### Stage 4: IQR outlier clipping -/

/-- Linear interpolation at fractional position `h` into the sorted list
`s` (numpy/pandas `interpolation="linear"`). -/
def interpAt (s : List ℚ) (h : ℚ) : ℚ :=
  if (⌊h⌋).toNat + 1 < s.length then
    s.getD (⌊h⌋).toNat 0
      + (h - ((⌊h⌋).toNat : ℚ))
        * (s.getD ((⌊h⌋).toNat + 1) 0 - s.getD (⌊h⌋).toNat 0)
  else s.getD (⌊h⌋).toNat 0

/-- `Series.quantile(p)` with the default linear interpolation:
position `p * (n - 1)` into the sorted values. -/
def quantileLin (vals : List ℚ) (p : ℚ) : ℚ :=
  interpAt (vals.insertionSort (· ≤ ·)) (p * ((vals.length : ℚ) - 1))

def colQ1 (t : Table) (c : String) : ℚ := quantileLin (colNums t c) (1/4)

def colQ3 (t : Table) (c : String) : ℚ := quantileLin (colNums t c) (3/4)

/-- `lower_bounds[col] = Q1 - 1.5 * IQR`. -/
def lowB (t : Table) (c : String) : ℚ :=
  colQ1 t c - 3/2 * (colQ3 t c - colQ1 t c)

/-- `upper_bounds[col] = Q3 + 1.5 * IQR`. -/
def upB (t : Table) (c : String) : ℚ :=
  colQ3 t c + 3/2 * (colQ3 t c - colQ1 t c)

/-- `np.clip`: values below `lo` become `lo`, above `hi` become `hi`;
non-numeric cells are untouched. -/
def clipValue (lo hi : ℚ) : Value → Value
  | .num v => .num (min hi (max lo v))
  | v => v

/-- Stage 4: clip every numeric column to its IQR bounds.  A numeric
column with no values has `NaN` quantiles, which clip nothing. -/
def clipStage (t : Table) : Table :=
  ⟨t.cols, t.rows.map (fun r => mkRow t.cols (fun c =>
     if isNumCol t c && !(colNums t c).isEmpty then
       clipValue (lowB t c) (upB t c) (getCell r c)
     else getCell r c))⟩

/-! ### Stage 5: day-first date parsing and time-based features -/

def isLeap (y : ℕ) : Bool := (y % 4 == 0 && y % 100 != 0) || y % 400 == 0

def daysInMonth (y m : ℕ) : ℕ :=
  if m = 2 then (if isLeap y then 29 else 28)
  else if m = 4 ∨ m = 6 ∨ m = 9 ∨ m = 11 then 30
  else 31

/-- A valid proleptic-Gregorian calendar date. -/
def validDate (y m d : ℕ) : Bool :=
  1 ≤ y && 1 ≤ m && m ≤ 12 && 1 ≤ d && d ≤ daysInMonth y m

/-- Split a character list on `/` (the behaviour of
`String.splitOn "/"`, stated structurally). -/
def splitSlash : List Char → List (List Char)
  | [] => [[]]
  | ch :: rest =>
    if ch = '/' then [] :: splitSlash rest
    else
      match splitSlash rest with
      | [] => [[ch]]
      | g :: gs => (ch :: g) :: gs

def digitsToNatAux (acc : ℕ) : List Char → Option ℕ
  | [] => some acc
  | ch :: rest =>
    if ch.isDigit then digitsToNatAux (acc * 10 + (ch.toNat - 48)) rest
    else none

/-- Parse a non-empty all-digit character list as a natural number
(the behaviour of `String.toNat?`). -/
def strToNat : List Char → Option ℕ
  | [] => none
  | cs => digitsToNatAux 0 cs

/-- Model of `pd.to_datetime(s, dayfirst=True)` for slash-separated
numeric dates: try day/month/year first and fall back to
month/day/year (pandas treats `dayfirst` as a preference). -/
def parseDate (s : String) : Option (ℕ × ℕ × ℕ) :=
  match splitSlash s.data with
  | [a, b, c] =>
    match strToNat a, strToNat b, strToNat c with
    | some d, some m, some y =>
      if validDate y m d then some (y, m, d)
      else if validDate y d m then some (y, d, m)
      else none
    | _, _, _ => none
  | _ => none

/-- Parse a cell of the `Date` column; non-strings and unparseable
strings coerce to missing (`errors="coerce"`). -/
def parseDateV : Value → Option (ℕ × ℕ × ℕ)
  | .str s => parseDate s
  | _ => none

def daysBeforeMonth (y m : ℕ) : ℕ :=
  ((List.range (m - 1)).map (fun i => daysInMonth y (i + 1))).sum

/-- Days since 0001-01-01 in the proleptic Gregorian calendar. -/
def daysFromCivil (y m d : ℕ) : ℕ :=
  365 * (y - 1) + (y - 1) / 4 + (y - 1) / 400 - (y - 1) / 100
    + daysBeforeMonth y m + (d - 1)

/-- `Series.dt.dayofweek`: 0 = Monday .. 6 = Sunday
(0001-01-01 was a Monday). -/
def dayOfWeek (y m d : ℕ) : ℕ := daysFromCivil y m d % 7

def dateDerivedCols : List String :=
  ["year", "month", "day", "dayofweek", "is_weekend"]

/-- The cell of derived column `c` for a parsed date `d?`.
`year`..`dayofweek` of an unparsed date are missing; `is_weekend` is
`0` because `NaN.isin([5, 6])` is false. -/
def dateFeature (d? : Option (ℕ × ℕ × ℕ)) (c : String) : Value :=
  match d? with
  | some (y, m, d) =>
    if c = "year" then .num y
    else if c = "month" then .num m
    else if c = "day" then .num d
    else if c = "dayofweek" then .num (dayOfWeek y m d)
    else .num (if dayOfWeek y m d = 5 ∨ dayOfWeek y m d = 6 then 1 else 0)
  | none => if c = "is_weekend" then .num 0 else .missing

/-- Stage 5: if a `Date` column exists, parse it day-first, append the
five derived columns, and drop `Date`; otherwise do nothing. -/
def dateStage (t : Table) : Table :=
  if "Date" ∈ t.cols then
    ⟨t.cols.filter (fun c => c ≠ "Date") ++ dateDerivedCols,
     t.rows.map (fun r =>
       mkRow (t.cols.filter (fun c => c ≠ "Date") ++ dateDerivedCols)
         (fun c =>
           if c ∈ dateDerivedCols then
             dateFeature (parseDateV (getCell r "Date")) c
           else getCell r c))⟩
  else t

/-! ### Stage 6: `LabelEncoder.fit_transform` per object column -/

/-- `LabelEncoder` classes: the distinct values in sorted order
(`np.unique`).  Lexicographic order on strings compares code points,
as Python does; it is realized here on the underlying character lists
(`String` order is by code points of `data`). -/
def classesOf (t : Table) (c : String) : List String :=
  ((colStrs t c).insertionSort (fun a b => a.data ≤ b.data)).dedup

/-- Stage 6: replace each string cell of an object column by the index
of its value among the sorted distinct values. -/
def encodeStage (t : Table) : Table :=
  ⟨t.cols, t.rows.map (fun r => mkRow t.cols (fun c =>
     if isStrCol t c then
       match getCell r c with
       | .str s => .num (firstIdx s (classesOf t c) : ℕ)
       | v => v
     else getCell r c))⟩

/-! ### Stage 7: `StandardScaler.fit_transform` -/

/-- The numeric columns of `t`, in column order. -/
def numColsOf (t : Table) : List String := t.cols.filter (fun c => isNumCol t c)

/-- Column mean over the non-missing values (`np.nanmean`). -/
def colMean (t : Table) (c : String) : ℚ :=
  (colNums t c).sum / ((colNums t c).length : ℚ)

/-- Population variance (divisor `n`), as `StandardScaler` computes it. -/
def colPopVar (t : Table) (c : String) : ℚ :=
  ((colNums t c).map (fun v => (v - colMean t c) ^ 2)).sum
    / ((colNums t c).length : ℚ)

/-- `scale_`: the standard deviation, with zero replaced by one
(sklearn `_handle_zeros_in_scale`). -/
def scaleOf (sqrtFn : ℚ → ℚ) (t : Table) (c : String) : ℚ :=
  if colPopVar t c = 0 then 1 else sqrtFn (colPopVar t c)

/-- Errors the embedded code can raise. -/
inductive PErr where
  | typeError
  | valueError
deriving DecidableEq, Repr

/-- Stage 7: standardize every numeric column.  sklearn `check_array`
requires at least one sample and one feature, so a table with no rows or
no numeric columns raises `ValueError`; missing values are permitted and
propagate. -/
def standardizeStage (sqrtFn : ℚ → ℚ) (t : Table) : Except PErr Table :=
  if t.rows.isEmpty || (numColsOf t).isEmpty then .error .valueError
  else .ok ⟨t.cols, t.rows.map (fun r => mkRow t.cols (fun c =>
    if isNumCol t c then
      match getCell r c with
      | .num v => .num ((v - colMean t c) / scaleOf sqrtFn t c)
      | v => v
    else getCell r c))⟩

/-! ### The pipeline -/

/-- `preprocess_data(file_path, save_path)`, from loaded table to
returned table.  After stage 7 the code runs
`save_dir = os.path.dirname(save_path)` unconditionally, which raises
`TypeError` when `save_path` is `None`; with a path given, directory
creation and `to_csv` succeed and the cleaned table is returned. -/
def preprocessData (sqrtFn : ℚ → ℚ) (t : Table) (savePath : Option String) :
    Except PErr Table :=
  let t1 := dropEmptyCols t
  let t2 := dropnaRows t1
  let t3 := dropDuplicates t2
  let t4 := clipStage t3
  let t5 := dateStage t4
  let t6 := encodeStage t5
  match standardizeStage sqrtFn t6 with
  | .error e => .error e
  | .ok t7 =>
    match savePath with
    | none => .error .typeError
    | some _ => .ok t7

/-- Largest `k ≤ bound` with `k * k ≤ n` (structural recursion so that
the kernel can evaluate it on concrete inputs). -/
def isqrtDown (n : ℕ) : ℕ → ℕ
  | 0 => 0
  | k + 1 => if (k + 1) * (k + 1) ≤ n then k + 1 else isqrtDown n k

/-- Integer square root by downward search. -/
def isqrt (n : ℕ) : ℕ := isqrtDown n n

/-- The exact rational square root where one exists (the numerator and
denominator of the reduced fraction are perfect squares), and `0`
otherwise.  Used to instantiate `sqrtFn` on concrete inputs whose
variances are perfect squares, where the rational model is exact. -/
def ratSqrtD (q : ℚ) : ℚ :=
  if 0 ≤ q.num ∧ (isqrt q.num.natAbs) ^ 2 = q.num.natAbs
      ∧ (isqrt q.den) ^ 2 = q.den
  then (isqrt q.num.natAbs : ℚ) / (isqrt q.den : ℚ)
  else 0

/-! ### Concrete tables and refinement definitions used by the claims -/

/-- A small loadable table: one numeric column `a` with values 0 and 2. -/
def T1 : Table := ⟨["a"], [[("a", .num 0)], [("a", .num 2)]]⟩

/-- C10 concrete input: a single numeric column with constant value 5. -/
def T10 : Table := ⟨["a"], [[("a", .num 5)], [("a", .num 5)]]⟩

/-- C4 concrete input: two rows, each incomplete in one of the two
columns, so stage 2 leaves zero rows. -/
def T4 : Table :=
  ⟨["a", "b"],
   [[("a", .num 1), ("b", .missing)], [("a", .missing), ("b", .num 2)]]⟩

/-- Sample variance with Bessel's correction (divisor `n - 1`), the
statistic the claim says stage 7 uses. -/
def colSampleVar (t : Table) (c : String) : ℚ :=
  ((colNums t c).map (fun v => (v - colMean t c) ^ 2)).sum
    / (((colNums t c).length : ℚ) - 1)

/-- Refinement statement of C2, following the claim's words: in the
standardization stage each numeric value `v` is replaced by
`(v - mean) / s` where `s` is the sample standard deviation with
Bessel's correction.  Stated without square roots: the output `o`
satisfies `o ^ 2 * sampleVar = (v - mean) ^ 2` with `o` on the same
side of zero as `v - mean` (both follow from `o = (v - mean) / s`,
`s > 0`, `s ^ 2 = sampleVar`). -/
def sampleStdClaimHolds (sqrtFn : ℚ → ℚ) (t : Table) : Bool :=
  match standardizeStage sqrtFn t with
  | .error _ => true
  | .ok u =>
    (numColsOf t).all (fun c =>
      (List.range t.rows.length).all (fun i =>
        match cellAt t i c with
        | .num v =>
          match cellAt u i c with
          | .num o =>
            decide (o ^ 2 * colSampleVar t c = (v - colMean t c) ^ 2
              ∧ 0 ≤ o * (v - colMean t c))
          | _ => false
        | _ => true))

/-- C3 concrete input: a table whose only column is a `Date` column
holding an unparseable string. -/
def T3 : Table := ⟨["Date"], [[("Date", .str "notadate")]]⟩

/-- No cell of the table is missing. -/
def tableNoMissing (t : Table) : Bool :=
  t.rows.all (fun r => t.cols.all (fun c => !(getCell r c).isMissing))

/-- Lift `tableNoMissing` over the pipeline result; an error has no
output cells. -/
def exceptNoMissing : Except PErr Table → Bool
  | .ok u => tableNoMissing u
  | .error _ => true

/-- Did the pipeline return a table (as opposed to raising)? -/
def exceptIsOk : Except PErr Table → Bool
  | .ok _ => true
  | .error _ => false

/-- C5 concrete input: ten distinct one-column rows whose two largest
values both clip to the upper IQR bound (Q1 = 21/4, Q3 = 51/4,
upper bound 24), and whose post-clip variance is the perfect square
64. -/
def T5 : Table :=
  ⟨["a"],
   [[("a", .num 0)], [("a", .num 1)], [("a", .num 5)], [("a", .num 6)],
    [("a", .num 7)], [("a", .num 8)], [("a", .num 12)], [("a", .num 13)],
    [("a", .num 100)], [("a", .num 200)]]⟩

/-- C5 witness input: a table with a duplicated row. -/
def T5w : Table :=
  ⟨["a"], [[("a", .num 1)], [("a", .num 2)], [("a", .num 1)]]⟩

/-- Are the output rows pairwise distinct? An error has no rows. -/
def exceptRowsDistinct : Except PErr Table → Bool
  | .ok u => decide u.rows.Nodup
  | .error _ => true

/-- C6 concrete input: the categorical column of the claim's example,
values `["b", "a", "c", "a"]`. -/
def T6 : Table :=
  ⟨["s"],
   [[("s", .str "b")], [("s", .str "a")], [("s", .str "c")],
    [("s", .str "a")]]⟩

/-- C8 concrete input: the spec's example date `"05/03/2021"` (read
day-first as 2021-03-05, a Friday) next to a numeric column. -/
def T8 : Table :=
  ⟨["Date", "v"], [[("Date", .str "05/03/2021"), ("v", .num 7)]]⟩

/-! ### Basic lemmas about rows and canonical tables -/

theorem lookup_mkRow {cs : List String} {f : String → Value} {c : String}
    (h : c ∈ cs) : (mkRow cs f).lookup c = some (f c) := by
  induction cs with
  | nil => cases h
  | cons d ds ih =>
    by_cases hd : c = d
    · subst hd
      simp [mkRow, List.lookup]
    · have hbeq : (c == d) = false := beq_eq_false_iff_ne.mpr hd
      rcases List.mem_cons.mp h with h1 | h2
      · exact absurd h1 hd
      · simp only [mkRow, List.map_cons, List.lookup, hbeq]
        exact ih h2

theorem getCell_mkRow_of_mem {cs : List String} {f : String → Value} {c : String}
    (h : c ∈ cs) : getCell (mkRow cs f) c = f c := by
  simp [getCell, lookup_mkRow h]

theorem getD_map_row {l : List Row} {g : Row → Row} {i : ℕ}
    (h : i < l.length) : (l.map g).getD i [] = g (l.getD i []) := by
  simp [List.getD_eq_getElem?_getD, List.getElem?_map,
    List.getElem?_eq_getElem h]

/-- Cell access in a stage output of the canonical shape
`⟨C, rows.map (fun r => mkRow C (F r))⟩`. -/
theorem cellAt_mapMk {t : Table} {C : List String} {F : Row → String → Value}
    {i : ℕ} {c : String} (hi : i < t.rows.length) (hc : c ∈ C) :
    cellAt ⟨C, t.rows.map (fun r => mkRow C (F r))⟩ i c
      = F (t.rows.getD i []) c := by
  unfold cellAt
  show getCell ((t.rows.map (fun r => mkRow C (F r))).getD i []) c = _
  rw [getD_map_row hi, getCell_mkRow_of_mem hc]

theorem cellAt_eq_getCell (t : Table) (i : ℕ) (c : String) :
    cellAt t i c = getCell (t.rows.getD i []) c := rfl

theorem getCell_mem_colValues {t : Table} {i : ℕ} (c : String)
    (hi : i < t.rows.length) :
    getCell (t.rows.getD i []) c ∈ colValues t c := by
  refine List.mem_map.mpr ⟨t.rows.getD i [], ?_, rfl⟩
  rw [List.getD_eq_getElem _ _ hi]
  exact List.getElem_mem _

theorem num_mem_colNums {t : Table} {i : ℕ} {c : String} {v : ℚ}
    (hi : i < t.rows.length)
    (hv : getCell (t.rows.getD i []) c = .num v) : v ∈ colNums t c := by
  refine List.mem_filterMap.mpr ⟨.num v, ?_, rfl⟩
  rw [← hv]
  exact getCell_mem_colValues c hi

theorem colNums_ne_nil_rows {t : Table} {c : String}
    (h : colNums t c ≠ []) : t.rows ≠ [] := by
  intro hr
  apply h
  simp [colNums, colValues, hr]

theorem list_sum_const {l : List ℚ} {v₀ : ℚ} (h : ∀ v ∈ l, v = v₀) :
    l.sum = (l.length : ℚ) * v₀ := by
  induction l with
  | nil => simp
  | cons x xs ih =>
    rw [List.sum_cons, ih (fun v hv => h v (List.mem_cons_of_mem _ hv)),
        h x (List.mem_cons_self _ _), List.length_cons]
    push_cast
    ring

/-- Mean of a constant column. -/
theorem colMean_const {t : Table} {c : String} {v₀ : ℚ}
    (hne : colNums t c ≠ []) (hall : ∀ v ∈ colNums t c, v = v₀) :
    colMean t c = v₀ := by
  have hlen0 : (colNums t c).length ≠ 0 := by
    simpa [List.length_eq_zero] using hne
  have hlen : ((colNums t c).length : ℚ) ≠ 0 := Nat.cast_ne_zero.mpr hlen0
  unfold colMean
  rw [list_sum_const hall, mul_comm, mul_div_assoc, div_self hlen, mul_one]


/-- Population variance of a constant column is zero. -/
theorem colPopVar_const {t : Table} {c : String} {v₀ : ℚ}
    (hne : colNums t c ≠ []) (hall : ∀ v ∈ colNums t c, v = v₀) :
    colPopVar t c = 0 := by
  unfold colPopVar
  rw [colMean_const hne hall]
  have hz : ((colNums t c).map (fun v => (v - v₀) ^ 2)).sum = 0 := by
    apply List.sum_eq_zero
    intro x hx
    rcases List.mem_map.mp hx with ⟨v, hv, rfl⟩
    rw [hall v hv]
    ring
  rw [hz, zero_div]

/-- Stage 7 succeeds exactly when there is at least one row and at least
one numeric column, and then produces the standardized table. -/
theorem standardizeStage_ok {sqrtFn : ℚ → ℚ} {t : Table}
    (h1 : t.rows ≠ []) (h2 : numColsOf t ≠ []) :
    standardizeStage sqrtFn t = .ok ⟨t.cols, t.rows.map (fun r =>
      mkRow t.cols (fun c =>
        if isNumCol t c then
          match getCell r c with
          | .num v => .num ((v - colMean t c) / scaleOf sqrtFn t c)
          | v => v
        else getCell r c))⟩ := by
  unfold standardizeStage
  rw [if_neg]
  simp [List.isEmpty_iff, h1, h2]


/-- C10: a numeric column whose values are all equal entering the
standardization stage raises no error, and the column comes out all
zero (sklearn replaces a zero scale by one, so each value maps to
`(v - mean) / 1 = 0`). -/
theorem C10_zero_variance_column_all_zero (sqrtFn : ℚ → ℚ) (t : Table)
    (c : String) (v₀ : ℚ) (hc : c ∈ t.cols) (hne : colNums t c ≠ [])
    (hall : ∀ v ∈ colNums t c, v = v₀)
    (hcells : ∀ i < t.rows.length, (cellAt t i c).isNum = true) :
    ∃ u, standardizeStage sqrtFn t = .ok u ∧
      ∀ i < t.rows.length, cellAt u i c = .num 0 := by
  have hnumcol : isNumCol t c = true := by
    unfold isNumCol
    apply List.all_eq_true.mpr
    intro v hv
    rcases List.mem_map.mp hv with ⟨r, hr, rfl⟩
    rcases List.mem_iff_get.mp hr with ⟨i, rfl⟩
    have hi : (i : ℕ) < t.rows.length := i.isLt
    have := hcells i hi
    rw [cellAt_eq_getCell, List.getD_eq_getElem _ _ hi] at this
    simp only [List.get_eq_getElem] at this ⊢
    rw [this]
    rfl
  have hrows : t.rows ≠ [] := colNums_ne_nil_rows hne
  have hnc : numColsOf t ≠ [] := by
    have : c ∈ numColsOf t := List.mem_filter.mpr ⟨hc, hnumcol⟩
    exact List.ne_nil_of_mem this
  refine ⟨_, standardizeStage_ok hrows hnc, ?_⟩
  intro i hi
  rw [cellAt_mapMk hi hc, hnumcol]
  have hvar : colPopVar t c = 0 := colPopVar_const hne hall
  have hmean : colMean t c = v₀ := colMean_const hne hall
  have hcell := hcells i hi
  rw [cellAt_eq_getCell] at hcell
  cases hv : getCell (t.rows.getD i []) c with
  | num v =>
    have hvmem : v ∈ colNums t c := num_mem_colNums hi hv
    have hveq : v = v₀ := hall v hvmem
    simp only [if_true]
    rw [hveq, hmean]
    unfold scaleOf
    rw [if_pos hvar]
    norm_num
  | str s => rw [hv] at hcell; simp [Value.isNum] at hcell
  | missing => rw [hv] at hcell; simp [Value.isNum] at hcell

/-- C10 witness: the constant column `[5, 5]` standardizes to `[0, 0]`
without error. -/
theorem C10_witness :
    ∃ u, standardizeStage ratSqrtD T10 = .ok u ∧
      ∀ i < T10.rows.length, cellAt u i "a" = .num 0 :=
  C10_zero_variance_column_all_zero ratSqrtD T10 "a" 5 (by decide) (by decide)
    (by decide) (by decide)

/-! ### C1: behaviour with and without a save destination -/


/-- C1 (code bug evaluation): with a destination the pipeline completes
and returns the cleaned table, but with no destination (the documented
default `save_path=None`) the call `os.path.dirname(save_path)` on line
75 raises `TypeError` before the function returns, contradicting the
docstring and the spec. -/
theorem C1_default_save_path_raises :
    preprocessData ratSqrtD T1 none = .error .typeError ∧
    preprocessData ratSqrtD T1 (some "out.csv") =
      .ok ⟨["a"], [[("a", .num (-1))], [("a", .num 1)]]⟩ := by
  constructor <;> rfl

/-! ### C9: determinism -/

/-- C9: the pipeline is a deterministic pure function of its input —
two invocations on equal inputs return equal outputs.  (In this pure
embedding determinism is definitional; the content is that no stage
draws on any state outside the table, and the encoding order of stage 6
is the deterministic sorted order.) -/
theorem C9_deterministic (sqrtFn : ℚ → ℚ) (t₁ t₂ : Table)
    (s₁ s₂ : Option String) (ht : t₁ = t₂) (hs : s₁ = s₂) :
    preprocessData sqrtFn t₁ s₁ = preprocessData sqrtFn t₂ s₂ := by
  rw [ht, hs]

/-- C9 witness: two runs on the table `T1` agree. -/
theorem C9_witness :
    preprocessData ratSqrtD T1 (some "out.csv") =
      preprocessData ratSqrtD T1 (some "out.csv") :=
  C9_deterministic ratSqrtD T1 T1 (some "out.csv") (some "out.csv") rfl rfl

/-! ### C2: which standard deviation does stage 7 use? -/



/-- C2 counterexample: on the column `[0, 2]` the code divides by the
population standard deviation (`1`), producing `[-1, 1]`; under
Bessel's correction the sample variance is `2` and `(-1) ^ 2 * 2 ≠ 1`,
so the claim as stated fails on this input. -/
theorem C2_counterexample : sampleStdClaimHolds ratSqrtD T1 = false := by
  decide

/-- Sums of nonnegative terms vanish only if every term does. -/
theorem list_sum_nonneg_all_zero {l : List ℚ} (hnn : ∀ x ∈ l, 0 ≤ x)
    (h : l.sum = 0) : ∀ x ∈ l, x = 0 := by
  induction l with
  | nil => intro x hx; cases hx
  | cons y ys ih =>
    have hy : 0 ≤ y := hnn y (List.mem_cons_self _ _)
    have hys : 0 ≤ ys.sum :=
      List.sum_nonneg (fun x hx => hnn x (List.mem_cons_of_mem _ hx))
    rw [List.sum_cons] at h
    have hy0 : y = 0 := le_antisymm (by linarith) hy
    have hsum0 : ys.sum = 0 := by linarith
    intro x hx
    rcases List.mem_cons.mp hx with rfl | hx2
    · exact hy0
    · exact ih (fun z hz => hnn z (List.mem_cons_of_mem _ hz)) hsum0 x hx2

/-- A column with zero population variance is constantly its mean. -/
theorem eq_mean_of_popVar_zero {t : Table} {c : String} {v : ℚ}
    (hv : v ∈ colNums t c) (hvar : colPopVar t c = 0) :
    v = colMean t c := by
  have hlen : ((colNums t c).length : ℚ) ≠ 0 := by
    have : (colNums t c).length ≠ 0 := by
      simpa [List.length_eq_zero] using List.ne_nil_of_mem hv
    exact Nat.cast_ne_zero.mpr this
  have hS : ((colNums t c).map (fun w => (w - colMean t c) ^ 2)).sum = 0 := by
    have := hvar
    unfold colPopVar at this
    exact (div_eq_zero_iff.mp this).resolve_right hlen
  have hterm : ((v - colMean t c) ^ 2) = 0 := by
    refine list_sum_nonneg_all_zero (fun x hx => ?_) hS _
      (List.mem_map.mpr ⟨v, hv, rfl⟩)
    rcases List.mem_map.mp hx with ⟨w, _, rfl⟩
    exact sq_nonneg _
  have := pow_eq_zero_iff (n := 2) (by norm_num) |>.mp hterm
  linarith [this]

/-- C2 amended: stage 7 standardizes with the population standard
deviation (divisor `n`, as `StandardScaler` computes it), not the
sample standard deviation: whenever `sqrtFn` is exact on the column's
population variance, each numeric value `v` comes out as an `o` with
`o ^ 2 * popVar = (v - mean) ^ 2` and `o` on the same side of zero as
`v - mean` — that is, `o = (v - mean) / sqrt popVar` (and `o = 0` for a
zero-variance column). -/
theorem C2_population_standardization (sqrtFn : ℚ → ℚ) (t : Table)
    (c : String) (hc : c ∈ numColsOf t)
    (hs : colPopVar t c ≠ 0 →
      0 < sqrtFn (colPopVar t c) ∧
        (sqrtFn (colPopVar t c)) ^ 2 = colPopVar t c)
    {u : Table} (hu : standardizeStage sqrtFn t = .ok u) :
    ∀ i < t.rows.length, ∀ v : ℚ, cellAt t i c = .num v →
      ∃ o : ℚ, cellAt u i c = .num o ∧
        o ^ 2 * colPopVar t c = (v - colMean t c) ^ 2 ∧
        0 ≤ o * (v - colMean t c) := by
  have hccols : c ∈ t.cols := (List.mem_filter.mp hc).1
  have hnumc : isNumCol t c = true := (List.mem_filter.mp hc).2
  have hrows : t.rows ≠ [] := by
    intro hnil
    rw [standardizeStage, if_pos] at hu
    · cases hu
    · simp [hnil]
  have hnce : numColsOf t ≠ [] := List.ne_nil_of_mem hc
  rw [standardizeStage_ok hrows hnce] at hu
  have hu' := (Except.ok.injEq _ _).mp hu
  subst hu'
  intro i hi v hv
  rw [cellAt_mapMk hi hccols, hnumc]
  rw [cellAt_eq_getCell] at hv
  rw [hv]
  simp only [if_true]
  refine ⟨(v - colMean t c) / scaleOf sqrtFn t c, rfl, ?_, ?_⟩
  · by_cases hvar : colPopVar t c = 0
    · have hvm : v = colMean t c :=
        eq_mean_of_popVar_zero (num_mem_colNums hi hv) hvar
      rw [hvar, hvm]
      ring
    · rcases hs hvar with ⟨hpos, hsq⟩
      have hne : sqrtFn (colPopVar t c) ≠ 0 := ne_of_gt hpos
      unfold scaleOf
      rw [if_neg hvar, div_pow, hsq, div_mul_cancel₀ _ hvar]
  · by_cases hvar : colPopVar t c = 0
    · have hvm : v = colMean t c :=
        eq_mean_of_popVar_zero (num_mem_colNums hi hv) hvar
      rw [hvm]
      simp
    · rcases hs hvar with ⟨hpos, _⟩
      unfold scaleOf
      rw [if_neg hvar, div_mul_eq_mul_div]
      apply div_nonneg _ (le_of_lt hpos)
      have : (v - colMean t c) * (v - colMean t c) = (v - colMean t c) ^ 2 := by
        ring
      rw [this]
      exact sq_nonneg _

/-- C2 witness: on the column `[0, 2]` (population variance 1), the
first value 0 standardizes to an `o` with `o ^ 2 * 1 = (0 - 1) ^ 2`,
namely `o = -1`. -/
theorem C2_witness :
    ∃ o : ℚ,
      cellAt ⟨["a"], [[("a", .num (-1))], [("a", .num 1)]]⟩ 0 "a" = .num o ∧
      o ^ 2 * colPopVar T1 "a" = ((0 : ℚ) - colMean T1 "a") ^ 2 ∧
      0 ≤ o * ((0 : ℚ) - colMean T1 "a") :=
  C2_population_standardization ratSqrtD T1 "a" (by decide) (by decide)
    rfl 0 (by decide) 0 (by decide)

/-! ### C4: behaviour when stage 2 empties the table -/

theorem dropDuplicates_rows_nil {t : Table} (h : t.rows = []) :
    (dropDuplicates t).rows = [] := by
  simp [dropDuplicates, h, dedupFirst, dedupFirstAux]

theorem clipStage_rows_nil {t : Table} (h : t.rows = []) :
    (clipStage t).rows = [] := by
  simp [clipStage, h]

theorem dateStage_rows_nil {t : Table} (h : t.rows = []) :
    (dateStage t).rows = [] := by
  unfold dateStage
  split <;> simp [h]

theorem encodeStage_rows_nil {t : Table} (h : t.rows = []) :
    (encodeStage t).rows = [] := by
  simp [encodeStage, h]

theorem standardizeStage_err_of_nil {sqrtFn : ℚ → ℚ} {t : Table}
    (h : t.rows = []) : standardizeStage sqrtFn t = .error .valueError := by
  unfold standardizeStage
  rw [if_pos]
  simp [h]

/-- C4 amended: if dropping incomplete rows leaves zero rows, stages 3
to 6 do operate on the empty table without error, but the
standardization stage rejects a table with zero samples
(`ValueError` from sklearn `check_array`), so the pipeline raises an
error instead of completing. -/
theorem C4_empty_after_dropna_errors (sqrtFn : ℚ → ℚ) (t : Table)
    (save : Option String) (h : (dropnaRows (dropEmptyCols t)).rows = []) :
    preprocessData sqrtFn t save = .error .valueError := by
  unfold preprocessData
  dsimp only
  have h3 := dropDuplicates_rows_nil h
  have h4 := clipStage_rows_nil h3
  have h5 := dateStage_rows_nil h4
  have h6 := encodeStage_rows_nil h5
  rw [standardizeStage_err_of_nil h6]


/-- C4 counterexample: on `T4` stage 2 empties the table and the
pipeline then raises `ValueError` at the standardization stage instead
of completing as the claim states. -/
theorem C4_counterexample :
    (dropnaRows (dropEmptyCols T4)).rows = [] ∧
    preprocessData ratSqrtD T4 (some "out.csv") = .error .valueError :=
  ⟨rfl, rfl⟩

/-- C4 witness: the amended theorem applied to `T4`. -/
theorem C4_witness :
    preprocessData ratSqrtD T4 (some "preprocessed.csv") =
      .error .valueError :=
  C4_empty_after_dropna_errors ratSqrtD T4 (some "preprocessed.csv") rfl

/-! ### C3: missing cells in the output -/

theorem tableNoMissing_iff {t : Table} :
    tableNoMissing t = true ↔
      ∀ r ∈ t.rows, ∀ c ∈ t.cols, (getCell r c).isMissing = false := by
  simp [tableNoMissing, List.all_eq_true]

/-- C3 counterexample: on `T3` the pipeline completes (unparseable
dates do not abort it), but the output contains missing cells — the
derived `year`, `month`, `day` and `dayofweek` of the unparseable date
are missing. -/
theorem C3_counterexample :
    exceptIsOk (preprocessData ratSqrtD T3 (some "out.csv")) = true ∧
    exceptNoMissing (preprocessData ratSqrtD T3 (some "out.csv")) = false :=
  ⟨rfl, rfl⟩

theorem noMissing_dropnaRows (t : Table) :
    tableNoMissing (dropnaRows t) = true := by
  rw [tableNoMissing_iff]
  intro r hr c hc
  simp only [dropnaRows] at hr hc
  have h2 := (List.mem_filter.mp hr).2
  unfold rowComplete at h2
  have := List.all_eq_true.mp h2 c hc
  simpa using this

theorem mem_dedupFirstAux {α : Type _} [DecidableEq α] {a : α} {l : List α} :
    ∀ {seen : List α}, a ∈ dedupFirstAux seen l ↔ a ∈ l ∧ a ∉ seen := by
  induction l with
  | nil => intro seen; simp [dedupFirstAux]
  | cons x xs ih =>
    intro seen
    by_cases hx : x ∈ seen
    · rw [dedupFirstAux, if_pos hx, ih]
      constructor
      · rintro ⟨h1, h2⟩
        exact ⟨List.mem_cons_of_mem _ h1, h2⟩
      · rintro ⟨h1, h2⟩
        rcases List.mem_cons.mp h1 with rfl | h3
        · exact absurd hx h2
        · exact ⟨h3, h2⟩
    · rw [dedupFirstAux, if_neg hx]
      constructor
      · intro h
        rcases List.mem_cons.mp h with rfl | h3
        · exact ⟨List.mem_cons_self _ _, hx⟩
        · rcases ih.mp h3 with ⟨h4, h5⟩
          exact ⟨List.mem_cons_of_mem _ h4,
            fun hs => h5 (List.mem_cons_of_mem _ hs)⟩
      · rintro ⟨h1, h2⟩
        rcases List.mem_cons.mp h1 with rfl | h3
        · exact List.mem_cons_self _ _
        · by_cases hax : a = x
          · subst hax
            exact List.mem_cons_self _ _
          · refine List.mem_cons_of_mem _ (ih.mpr ⟨h3, ?_⟩)
            intro hs
            rcases List.mem_cons.mp hs with h | h
            · exact hax h
            · exact h2 h

theorem mem_dedupFirst {α : Type _} [DecidableEq α] {a : α} {l : List α} :
    a ∈ dedupFirst l ↔ a ∈ l := by
  unfold dedupFirst
  rw [mem_dedupFirstAux]
  simp

theorem noMissing_dropDuplicates {t : Table}
    (h : tableNoMissing t = true) :
    tableNoMissing (dropDuplicates t) = true := by
  rw [tableNoMissing_iff] at h ⊢
  intro r hr c hc
  simp only [dropDuplicates] at hr hc
  exact h r (mem_dedupFirst.mp hr) c hc

theorem noMissing_clipStage {t : Table} (h : tableNoMissing t = true) :
    tableNoMissing (clipStage t) = true := by
  rw [tableNoMissing_iff] at h ⊢
  intro r hr c hc
  simp only [clipStage] at hr hc
  rcases List.mem_map.mp hr with ⟨r0, hr0, rfl⟩
  rw [getCell_mkRow_of_mem hc]
  have hnm := h r0 hr0 c hc
  split
  · cases hv : getCell r0 c with
    | num v => simp [clipValue, Value.isMissing]
    | str s => simp [clipValue, Value.isMissing]
    | missing => rw [hv] at hnm; simp [Value.isMissing] at hnm
  · exact hnm

theorem noMissing_dateStage {t : Table} (h : tableNoMissing t = true)
    (hd : "Date" ∈ t.cols →
      ∀ r ∈ t.rows, (parseDateV (getCell r "Date")).isSome = true) :
    tableNoMissing (dateStage t) = true := by
  rw [tableNoMissing_iff] at h ⊢
  intro r hr c hc
  unfold dateStage at hr hc
  by_cases hmem : "Date" ∈ t.cols
  · rw [if_pos hmem] at hr hc
    simp only at hr hc
    rcases List.mem_map.mp hr with ⟨r0, hr0, rfl⟩
    rw [getCell_mkRow_of_mem hc]
    by_cases hdc : c ∈ dateDerivedCols
    · rw [if_pos hdc]
      rcases Option.isSome_iff_exists.mp (hd hmem r0 hr0) with ⟨⟨y, m, d⟩, hp⟩
      rw [hp]
      unfold dateFeature
      split_ifs <;> simp [Value.isMissing]
    · rw [if_neg hdc]
      have hc' : c ∈ t.cols := by
        rcases List.mem_append.mp hc with h1 | h2
        · exact (List.mem_filter.mp h1).1
        · exact absurd h2 hdc
      exact h r0 hr0 c hc'
  · rw [if_neg hmem] at hr hc
    exact h r hr c hc

theorem noMissing_encodeStage {t : Table} (h : tableNoMissing t = true) :
    tableNoMissing (encodeStage t) = true := by
  rw [tableNoMissing_iff] at h ⊢
  intro r hr c hc
  simp only [encodeStage] at hr hc
  rcases List.mem_map.mp hr with ⟨r0, hr0, rfl⟩
  rw [getCell_mkRow_of_mem hc]
  have hnm := h r0 hr0 c hc
  split
  · cases hv : getCell r0 c with
    | num v => simp [Value.isMissing]
    | str s => simp [Value.isMissing]
    | missing => rw [hv] at hnm; simp [Value.isMissing] at hnm
  · exact hnm

theorem noMissing_standardizeStage {sqrtFn : ℚ → ℚ} {t u : Table}
    (h : tableNoMissing t = true)
    (hu : standardizeStage sqrtFn t = .ok u) : tableNoMissing u = true := by
  unfold standardizeStage at hu
  split at hu
  · cases hu
  · injection hu with hu2
    subst hu2
    rw [tableNoMissing_iff] at h ⊢
    intro r hr c hc
    simp only at hr hc
    rcases List.mem_map.mp hr with ⟨r0, hr0, rfl⟩
    rw [getCell_mkRow_of_mem hc]
    have hnm := h r0 hr0 c hc
    split
    · cases hv : getCell r0 c with
      | num v => simp [Value.isMissing]
      | str s => simp [Value.isMissing]
      | missing => rw [hv] at hnm; simp [Value.isMissing] at hnm
    · exact hnm

/-- C3 amended: unparseable dates coerce to missing without aborting
the temporal stage, and those missing values survive into the output;
the no-missing-cells guarantee holds exactly when every value of the
`Date` column reaching the temporal stage parses (in particular always
when there is no `Date` column). -/
theorem C3_no_missing_when_dates_parse (sqrtFn : ℚ → ℚ) (t : Table)
    (save : Option String) {u : Table}
    (hdate :
      "Date" ∈ (clipStage (dropDuplicates (dropnaRows (dropEmptyCols t)))).cols →
      ∀ r ∈ (clipStage (dropDuplicates (dropnaRows (dropEmptyCols t)))).rows,
        (parseDateV (getCell r "Date")).isSome = true)
    (hu : preprocessData sqrtFn t save = .ok u) :
    tableNoMissing u = true := by
  unfold preprocessData at hu
  dsimp only at hu
  have h2 : tableNoMissing (dropnaRows (dropEmptyCols t)) = true :=
    noMissing_dropnaRows _
  have h3 := noMissing_dropDuplicates h2
  have h4 := noMissing_clipStage h3
  have h5 := noMissing_dateStage h4 hdate
  have h6 := noMissing_encodeStage h5
  cases hst : standardizeStage sqrtFn
      (encodeStage (dateStage (clipStage (dropDuplicates
        (dropnaRows (dropEmptyCols t)))))) with
  | error e => rw [hst] at hu; cases hu
  | ok t7 =>
    rw [hst] at hu
    cases save with
    | none => cases hu
    | some p =>
      injection hu with hu2
      subst hu2
      exact noMissing_standardizeStage h6 hst

/-- C3 witness: on the table `T1` (no `Date` column) the pipeline
output has no missing cell. -/
theorem C3_witness :
    tableNoMissing ⟨["a"], [[("a", .num (-1))], [("a", .num 1)]]⟩ = true :=
  C3_no_missing_when_dates_parse ratSqrtD T1 (some "out.csv")
    (by decide) rfl

/-! ### C5: duplicate rows -/

/-- C5 counterexample: on `T5` the pipeline completes, yet the output
rows are not pairwise distinct — stage 4 clips both 100 and 200 to the
same upper bound after stage 3 has already deduplicated, so two equal
rows reach the output. -/
theorem C5_counterexample :
    exceptIsOk (preprocessData ratSqrtD T5 (some "out.csv")) = true ∧
    exceptRowsDistinct (preprocessData ratSqrtD T5 (some "out.csv")) = false :=
  ⟨rfl, rfl⟩

theorem nodup_dedupFirstAux {α : Type _} [DecidableEq α] {l : List α} :
    ∀ {seen : List α}, (dedupFirstAux seen l).Nodup := by
  induction l with
  | nil => intro seen; simp [dedupFirstAux]
  | cons x xs ih =>
    intro seen
    by_cases hx : x ∈ seen
    · rw [dedupFirstAux, if_pos hx]
      exact ih
    · rw [dedupFirstAux, if_neg hx]
      refine List.nodup_cons.mpr ⟨?_, ih⟩
      intro hmem
      exact (mem_dedupFirstAux.mp hmem).2 (List.mem_cons_self _ _)

theorem dedupFirstAux_sublist {α : Type _} [DecidableEq α] {l : List α} :
    ∀ {seen : List α}, (dedupFirstAux seen l).Sublist l := by
  induction l with
  | nil => intro seen; simp [dedupFirstAux]
  | cons x xs ih =>
    intro seen
    by_cases hx : x ∈ seen
    · rw [dedupFirstAux, if_pos hx]
      exact ih.cons x
    · rw [dedupFirstAux, if_neg hx]
      exact ih.cons₂ x

theorem firstIdx_dedupFirstAux_le {α : Type _} [DecidableEq α] {a : α}
    {l : List α} : ∀ {seen : List α}, a ∈ l → a ∉ seen →
      firstIdx a (dedupFirstAux seen l) ≤ firstIdx a l := by
  induction l with
  | nil => intro seen h _; cases h
  | cons x xs ih =>
    intro seen hmem hsn
    by_cases hx : x ∈ seen
    · have hax : x ≠ a := fun he => hsn (he ▸ hx)
      rw [dedupFirstAux, if_pos hx]
      rw [show firstIdx a (x :: xs) = firstIdx a xs + 1 by
        rw [firstIdx, if_neg hax]]
      have hxs : a ∈ xs :=
        (List.mem_cons.mp hmem).resolve_left (fun h => hax h.symm)
      exact Nat.le_succ_of_le (ih hxs hsn)
    · rw [dedupFirstAux, if_neg hx]
      by_cases hax : x = a
      · rw [firstIdx, if_pos hax, firstIdx, if_pos hax]
      · rw [firstIdx, if_neg hax, firstIdx, if_neg hax]
        have hxs : a ∈ xs :=
          (List.mem_cons.mp hmem).resolve_left (fun h => hax h.symm)
        have hsn2 : a ∉ x :: seen := by
          intro h
          rcases List.mem_cons.mp h with h1 | h2
          · exact hax h1.symm
          · exact hsn h2
        exact Nat.succ_le_succ (ih hxs hsn2)

/-- C5 amended: after the duplicate-removal stage rows identical across
all columns collapse to one retained occurrence and the stage output is
duplicate-free and order-preserving, with each row kept no later than
its first occurrence; but the final output of the pipeline need not
have pairwise-distinct rows, because the later clipping stage can map
distinct rows to equal rows. -/
theorem C5_dedup_first_occurrence (t : Table) :
    (dropDuplicates t).rows.Nodup ∧
    (∀ r : Row, r ∈ (dropDuplicates t).rows ↔ r ∈ t.rows) ∧
    (dropDuplicates t).rows.Sublist t.rows ∧
    (∀ r ∈ t.rows,
      firstIdx r (dropDuplicates t).rows ≤ firstIdx r t.rows) := by
  refine ⟨nodup_dedupFirstAux, ?_, dedupFirstAux_sublist, ?_⟩
  · intro r
    exact mem_dedupFirst
  · intro r hr
    exact firstIdx_dedupFirstAux_le hr (List.not_mem_nil r)

/-- C5 witness: on `T5w` the duplicated row collapses to its first
occurrence and the stage output is duplicate-free. -/
theorem C5_witness :
    (dropDuplicates T5w).rows.Nodup ∧
    (dropDuplicates T5w).rows = [[("a", .num 1)], [("a", .num 2)]] :=
  ⟨(C5_dedup_first_occurrence T5w).1, rfl⟩

/-! ### C6: label encoding order -/

theorem str_mem_colStrs {t : Table} {i : ℕ} {c : String} {s : String}
    (hi : i < t.rows.length)
    (hs : getCell (t.rows.getD i []) c = .str s) : s ∈ colStrs t c := by
  refine List.mem_filterMap.mpr ⟨.str s, ?_, rfl⟩
  rw [← hs]
  exact getCell_mem_colValues c hi

theorem classesOf_sorted (t : Table) (c : String) :
    (classesOf t c).Pairwise (fun a b => a.data ≤ b.data) := by
  haveI h1 : IsTrans String (fun a b => a.data ≤ b.data) :=
    ⟨fun _ _ _ hab hbc => le_trans hab hbc⟩
  haveI h2 : IsTotal String (fun a b => a.data ≤ b.data) :=
    ⟨fun a b => le_total a.data b.data⟩
  exact List.Pairwise.sublist (List.dedup_sublist _)
    (List.sorted_insertionSort _ _)

theorem mem_classesOf {t : Table} {c : String} {s : String} :
    s ∈ classesOf t c ↔ s ∈ colStrs t c := by
  unfold classesOf
  rw [List.mem_dedup]
  exact (List.perm_insertionSort _ _).mem_iff

theorem classesOf_perm_dedup (t : Table) (c : String) :
    (classesOf t c).Perm (colStrs t c).dedup :=
  (List.perm_insertionSort _ _).dedup

/-- In a sorted duplicate-free list, the index of an element equals the
number of elements strictly smaller than it. -/
theorem firstIdx_sorted_rank {L : List String}
    (hs : L.Pairwise (fun a b => a.data ≤ b.data)) (hn : L.Nodup)
    {s : String} (hmem : s ∈ L) :
    firstIdx s L = (L.filter (fun v => v.data < s.data)).length := by
  induction L with
  | nil => cases hmem
  | cons x xs ih =>
    rcases List.pairwise_cons.mp hs with ⟨hx_le, hs2⟩
    rcases List.nodup_cons.mp hn with ⟨_, hn2⟩
    by_cases hx : x = s
    · subst hx
      rw [firstIdx, if_pos rfl]
      have hnil : (x :: xs).filter (fun v => v.data < x.data) = [] := by
        rw [List.filter_eq_nil_iff]
        intro a ha
        rcases List.mem_cons.mp ha with rfl | ha2
        · simp
        · simpa using not_lt.mpr (hx_le a ha2)
      rw [hnil]
      rfl
    · have hmem2 : s ∈ xs :=
        (List.mem_cons.mp hmem).resolve_left (fun h => hx h.symm)
      have hxlt : x.data < s.data :=
        lt_of_le_of_ne (hx_le s hmem2) (fun he => hx (String.ext he))
      rw [firstIdx, if_neg hx, List.filter_cons,
        if_pos (by simpa using hxlt), List.length_cons,
        ih hs2 hn2 hmem2]

/-- C6: the encoding stage replaces each value `s` of a textual column
by the number of distinct column values strictly below `s` in
code-point order — i.e. codes are assigned by sorting the distinct
values lexicographically and numbering them sequentially from 0 — and
each code is below the number of distinct values. -/
theorem C6_encode_sorted_rank (t : Table) (c : String) (hc : c ∈ t.cols) :
    ∀ i < t.rows.length, ∀ s : String, cellAt t i c = .str s →
      cellAt (encodeStage t) i c =
        .num (((colStrs t c).dedup.filter
          (fun v => v.data < s.data)).length) ∧
      ((colStrs t c).dedup.filter (fun v => v.data < s.data)).length
        < (colStrs t c).dedup.length := by
  intro i hi s hs
  rw [cellAt_eq_getCell] at hs
  have hstr : isStrCol t c = true := by
    unfold isStrCol
    apply List.any_eq_true.mpr
    refine ⟨getCell (t.rows.getD i []) c, getCell_mem_colValues c hi, ?_⟩
    rw [hs]
    rfl
  have hsmem : s ∈ colStrs t c := str_mem_colStrs hi hs
  constructor
  · rw [show encodeStage t = ⟨t.cols, t.rows.map (fun r => mkRow t.cols
      (fun c =>
        if isStrCol t c then
          match getCell r c with
          | .str s => .num (firstIdx s (classesOf t c) : ℕ)
          | v => v
        else getCell r c))⟩ from rfl]
    rw [cellAt_mapMk hi hc, hstr, if_pos rfl, hs]
    show Value.num ((firstIdx s (classesOf t c) : ℕ) : ℚ) = _
    have hrank := firstIdx_sorted_rank (classesOf_sorted t c)
      (List.nodup_dedup _) (mem_classesOf.mpr hsmem)
    have hperm : ((classesOf t c).filter
        (fun v => v.data < s.data)).length =
        ((colStrs t c).dedup.filter (fun v => v.data < s.data)).length :=
      ((classesOf_perm_dedup t c).filter _).length_eq
    rw [hrank, hperm]
  · apply List.length_filter_lt_length_iff_exists.mpr
    exact ⟨s, List.mem_dedup.mpr hsmem, by simp⟩

/-- C6 witness: on the column `["b", "a", "c", "a"]` the value `"b"`
encodes to its rank among the sorted distinct values, and the full
encoded column is `[1, 0, 2, 0]` as the claim's example states. -/
theorem C6_witness :
    cellAt (encodeStage T6) 0 "s" =
      .num (((colStrs T6 "s").dedup.filter
        (fun v => v.data < "b".data)).length) ∧
    (encodeStage T6).rows =
      [[("s", .num 1)], [("s", .num 0)], [("s", .num 2)], [("s", .num 0)]] :=
  ⟨(C6_encode_sorted_rank T6 "s" (by decide) 0 (by decide) "b" rfl).1, rfl⟩

/-! ### C8: the temporal stage -/

theorem daysInMonth_le_31 (y m : ℕ) : daysInMonth y m ≤ 31 := by
  unfold daysInMonth
  split_ifs <;> omega

theorem parseDate_valid {s : String} {y m d : ℕ}
    (h : parseDate s = some (y, m, d)) : validDate y m d = true := by
  unfold parseDate at h
  split at h
  · split at h
    · split at h
      · cases h
        assumption
      · split at h
        · cases h
          assumption
        · cases h
    · cases h
  · cases h

theorem parseDateV_valid {v : Value} {y m d : ℕ}
    (h : parseDateV v = some (y, m, d)) : validDate y m d = true := by
  cases v with
  | str s => exact parseDate_valid h
  | num q => cases h
  | missing => cases h

theorem validDate_bounds {y m d : ℕ} (h : validDate y m d = true) :
    1 ≤ m ∧ m ≤ 12 ∧ 1 ≤ d ∧ d ≤ 31 := by
  unfold validDate at h
  simp only [Bool.and_eq_true, decide_eq_true_eq] at h
  have := daysInMonth_le_31 y m
  omega

/-- C8: if a column literally named `Date` exists, the temporal stage
appends exactly the five derived columns `year`, `month` (1 to 12),
`day` (1 to 31), `dayofweek` (0 = Monday .. 6 = Sunday; 2021-03-01,
a Monday, maps to 0 and 2021-03-07, a Sunday, to 6) and `is_weekend`
(1 iff the day is a Saturday or Sunday), leaves the other columns
untouched and drops `Date`; if no `Date` column exists the stage is the
identity.  An unparseable date gives missing derived values except
`is_weekend = 0` (`NaN.isin([5, 6])` is false).  The freshness
hypothesis restricts to inputs on which the embedded append semantics
agrees with pandas, which would overwrite an existing column of the
same name in place. -/
theorem C8_temporal_stage (t : Table)
    (hfresh : ∀ c ∈ dateDerivedCols, c ∉ t.cols) :
    ("Date" ∉ t.cols → dateStage t = t) ∧
    ("Date" ∈ t.cols →
      (dateStage t).cols =
        t.cols.filter (fun c => c ≠ "Date") ++ dateDerivedCols ∧
      "Date" ∉ (dateStage t).cols ∧
      dayOfWeek 2021 3 1 = 0 ∧ dayOfWeek 2021 3 7 = 6 ∧
      ∀ i < t.rows.length,
        (∀ y m d : ℕ, parseDateV (cellAt t i "Date") = some (y, m, d) →
          cellAt (dateStage t) i "year" = .num y ∧
          cellAt (dateStage t) i "month" = .num m ∧ 1 ≤ m ∧ m ≤ 12 ∧
          cellAt (dateStage t) i "day" = .num d ∧ 1 ≤ d ∧ d ≤ 31 ∧
          cellAt (dateStage t) i "dayofweek" = .num (dayOfWeek y m d) ∧
          dayOfWeek y m d < 7 ∧
          (cellAt (dateStage t) i "is_weekend" = .num 1 ↔
            (dayOfWeek y m d = 5 ∨ dayOfWeek y m d = 6)) ∧
          (cellAt (dateStage t) i "is_weekend" = .num 1 ∨
            cellAt (dateStage t) i "is_weekend" = .num 0)) ∧
        (parseDateV (cellAt t i "Date") = none →
          cellAt (dateStage t) i "year" = .missing ∧
          cellAt (dateStage t) i "month" = .missing ∧
          cellAt (dateStage t) i "day" = .missing ∧
          cellAt (dateStage t) i "dayofweek" = .missing ∧
          cellAt (dateStage t) i "is_weekend" = .num 0) ∧
        (∀ c ∈ t.cols, c ≠ "Date" →
          cellAt (dateStage t) i c = cellAt t i c)) := by
  constructor
  · intro hnd
    unfold dateStage
    rw [if_neg hnd]
  · intro hd
    have hds : dateStage t = ⟨t.cols.filter (fun c => c ≠ "Date")
        ++ dateDerivedCols,
      t.rows.map (fun r =>
        mkRow (t.cols.filter (fun c => c ≠ "Date") ++ dateDerivedCols)
          (fun c =>
            if c ∈ dateDerivedCols then
              dateFeature (parseDateV (getCell r "Date")) c
            else getCell r c))⟩ := by
      unfold dateStage
      rw [if_pos hd]
    have hcols : (dateStage t).cols =
        t.cols.filter (fun c => c ≠ "Date") ++ dateDerivedCols := by
      rw [hds]
    refine ⟨hcols, ?_, by decide, by decide, ?_⟩
    · rw [hcols]
      intro hmem
      rcases List.mem_append.mp hmem with h1 | h2
      · have := (List.mem_filter.mp h1).2
        simp at this
      · simp [dateDerivedCols] at h2
    · intro i hi
      have hcell : ∀ c ∈ dateDerivedCols,
          cellAt (dateStage t) i c =
            dateFeature (parseDateV (cellAt t i "Date")) c := by
        intro c hcmem
        rw [hds, cellAt_mapMk hi (List.mem_append_right _ hcmem),
          if_pos hcmem, cellAt_eq_getCell]
      refine ⟨?_, ?_, ?_⟩
      · intro y m d hp
        rcases validDate_bounds (parseDateV_valid hp) with ⟨h1, h2, h3, h4⟩
        have hwk : cellAt (dateStage t) i "is_weekend" =
            .num (if dayOfWeek y m d = 5 ∨ dayOfWeek y m d = 6
              then 1 else 0) := by
          rw [hcell "is_weekend" (by decide), hp]
          rfl
        refine ⟨?_, ?_, h1, h2, ?_, h3, h4, ?_, Nat.mod_lt _ (by norm_num),
          ?_, ?_⟩
        · rw [hcell "year" (by decide), hp]
          rfl
        · rw [hcell "month" (by decide), hp]
          rfl
        · rw [hcell "day" (by decide), hp]
          rfl
        · rw [hcell "dayofweek" (by decide), hp]
          rfl
        · rw [hwk]
          split_ifs with hw
          · simpa using hw
          · simp only [Value.num.injEq]
            constructor
            · intro h01
              norm_num at h01
            · intro hw2
              exact absurd hw2 hw
        · rw [hwk]
          split_ifs
          · left
            rfl
          · right
            rfl
      · intro hp
        have hy := hcell "year" (by decide)
        have hm := hcell "month" (by decide)
        have hdd := hcell "day" (by decide)
        have hw := hcell "dayofweek" (by decide)
        have hwk := hcell "is_weekend" (by decide)
        rw [hp] at hy hm hdd hw hwk
        exact ⟨hy.trans rfl, hm.trans rfl, hdd.trans rfl, hw.trans rfl,
          hwk.trans rfl⟩
      · intro c hc hne
        have hmemf : c ∈ t.cols.filter (fun x => x ≠ "Date") :=
          List.mem_filter.mpr ⟨hc, by simpa using hne⟩
        have hnin : c ∉ dateDerivedCols := fun hmem => hfresh c hmem hc
        rw [hds, cellAt_mapMk hi (List.mem_append_left _ hmemf),
          if_neg hnin, cellAt_eq_getCell]

/-- C8 witness: on the spec's example `"05/03/2021"` the stage yields
year 2021, month 3, day 5, dayofweek 4 (Friday), is_weekend 0, keeps
`v` and drops `Date`. -/
theorem C8_witness :
    (dateStage T8).cols =
      T8.cols.filter (fun c => c ≠ "Date") ++ dateDerivedCols ∧
    cellAt (dateStage T8) 0 "year" = .num 2021 ∧
    cellAt (dateStage T8) 0 "month" = .num 3 ∧
    cellAt (dateStage T8) 0 "day" = .num 5 ∧
    cellAt (dateStage T8) 0 "dayofweek" = .num 4 ∧
    cellAt (dateStage T8) 0 "is_weekend" = .num 0 ∧
    "Date" ∉ (dateStage T8).cols ∧
    cellAt (dateStage T8) 0 "v" = .num 7 :=
  ⟨((C8_temporal_stage T8 (by decide)).2 (by decide)).1,
    rfl, rfl, rfl, rfl, rfl, by decide, rfl⟩

/-! ### C7: IQR clipping -/

theorem floor_toNat_cast {h : ℚ} (h0 : 0 ≤ h) :
    ((⌊h⌋.toNat : ℚ)) = ((⌊h⌋ : ℤ) : ℚ) := by
  norm_cast
  exact Int.toNat_of_nonneg (Int.floor_nonneg.mpr h0)

theorem toNat_floor_mono {a b : ℚ} (hab : a ≤ b) :
    ⌊a⌋.toNat ≤ ⌊b⌋.toNat :=
  Int.toNat_le_toNat (Int.floor_le_floor hab)

theorem toNat_floor_lt_len {h : ℚ} {n : ℕ} (hn : h ≤ (n : ℚ) - 1)
    (hn1 : 1 ≤ n) : ⌊h⌋.toNat < n := by
  have h2 : ⌊h⌋ ≤ (n : ℤ) - 1 := by
    have h3 : ⌊h⌋ ≤ ⌊(n : ℚ) - 1⌋ := Int.floor_le_floor hn
    have h4 : ⌊(n : ℚ) - 1⌋ = (n : ℤ) - 1 := by
      rw [show ((n : ℚ) - 1) = ((n : ℤ) : ℚ) - ((1 : ℤ) : ℚ) by push_cast; ring]
      rw [← Int.cast_sub, Int.floor_intCast]
    omega
  omega

theorem getD_sorted_mono {s : List ℚ} (hs : List.Sorted (· ≤ ·) s)
    {i j : ℕ} (hij : i ≤ j) (hj : j < s.length) :
    s.getD i 0 ≤ s.getD j 0 := by
  have hi : i < s.length := lt_of_le_of_lt hij hj
  rw [List.getD_eq_getElem _ _ hi, List.getD_eq_getElem _ _ hj]
  have := hs.get_mono (a := ⟨i, hi⟩) (b := ⟨j, hj⟩) hij
  simpa using this

theorem getD_mem {s : List ℚ} {i : ℕ} (hi : i < s.length) :
    s.getD i 0 ∈ s := by
  rw [List.getD_eq_getElem _ _ hi]
  exact List.getElem_mem _

theorem interp_left_le {s : List ℚ} (hs : List.Sorted (· ≤ ·) s) {h : ℚ}
    (h0 : 0 ≤ h) (_hlt : ⌊h⌋.toNat < s.length) :
    s.getD (⌊h⌋.toNat) 0 ≤ interpAt s h := by
  have hfl : ((⌊h⌋.toNat : ℚ)) ≤ h := by
    rw [floor_toNat_cast h0]
    exact Int.floor_le h
  unfold interpAt
  by_cases hb : ⌊h⌋.toNat + 1 < s.length
  · rw [if_pos hb]
    have hd : s.getD (⌊h⌋.toNat) 0 ≤ s.getD (⌊h⌋.toNat + 1) 0 :=
      getD_sorted_mono hs (Nat.le_succ _) hb
    have hmul : 0 ≤ (h - (⌊h⌋.toNat : ℚ)) *
        (s.getD (⌊h⌋.toNat + 1) 0 - s.getD (⌊h⌋.toNat) 0) :=
      mul_nonneg (by linarith) (by linarith)
    linarith
  · rw [if_neg hb]

theorem interp_le_right {s : List ℚ} (hs : List.Sorted (· ≤ ·) s) {h : ℚ}
    (h0 : 0 ≤ h) (hb : ⌊h⌋.toNat + 1 < s.length) :
    interpAt s h ≤ s.getD (⌊h⌋.toNat + 1) 0 := by
  have hfl : ((⌊h⌋.toNat : ℚ)) ≤ h := by
    rw [floor_toNat_cast h0]
    exact Int.floor_le h
  have hlt1 : h < (⌊h⌋.toNat : ℚ) + 1 := by
    rw [floor_toNat_cast h0]
    exact Int.lt_floor_add_one h
  have hd : s.getD (⌊h⌋.toNat) 0 ≤ s.getD (⌊h⌋.toNat + 1) 0 :=
    getD_sorted_mono hs (Nat.le_succ _) hb
  unfold interpAt
  rw [if_pos hb]
  have hmul := mul_le_mul_of_nonneg_right
    (show h - (⌊h⌋.toNat : ℚ) ≤ 1 by linarith)
    (show (0:ℚ) ≤ s.getD (⌊h⌋.toNat + 1) 0 - s.getD (⌊h⌋.toNat) 0 by linarith)
  linarith

theorem interpAt_mono {s : List ℚ} (hs : List.Sorted (· ≤ ·) s) {a b : ℚ}
    (h0 : 0 ≤ a) (hab : a ≤ b) (hbn : b ≤ (s.length : ℚ) - 1) :
    interpAt s a ≤ interpAt s b := by
  have h0b : 0 ≤ b := le_trans h0 hab
  have hn1 : 1 ≤ s.length := by
    by_contra hn
    have : s.length = 0 := by omega
    rw [this] at hbn
    norm_num at hbn
    linarith
  have hjlt : ⌊b⌋.toNat < s.length := toNat_floor_lt_len hbn hn1
  have hmono : ⌊a⌋.toNat ≤ ⌊b⌋.toNat := toNat_floor_mono hab
  by_cases hij : ⌊a⌋.toNat = ⌊b⌋.toNat
  · by_cases hb1 : ⌊a⌋.toNat + 1 < s.length
    · unfold interpAt
      rw [if_pos hb1, ← hij, if_pos hb1]
      have hd : s.getD (⌊a⌋.toNat) 0 ≤ s.getD (⌊a⌋.toNat + 1) 0 :=
        getD_sorted_mono hs (Nat.le_succ _) hb1
      have hmul := mul_le_mul_of_nonneg_right
        (show a - (⌊a⌋.toNat : ℚ) ≤ b - (⌊a⌋.toNat : ℚ) by linarith)
        (show (0:ℚ) ≤ s.getD (⌊a⌋.toNat + 1) 0 - s.getD (⌊a⌋.toNat) 0 by
          linarith)
      linarith
    · unfold interpAt
      rw [if_neg hb1, ← hij, if_neg hb1]
  · have hlt : ⌊a⌋.toNat < ⌊b⌋.toNat := lt_of_le_of_ne hmono hij
    have h1 : ⌊a⌋.toNat + 1 < s.length := by omega
    calc interpAt s a ≤ s.getD (⌊a⌋.toNat + 1) 0 := interp_le_right hs h0 h1
      _ ≤ s.getD (⌊b⌋.toNat) 0 := getD_sorted_mono hs (by omega) hjlt
      _ ≤ interpAt s b := interp_left_le hs h0b hjlt

/-- If the two quantile positions interpolate to the same value, that
value is one of the list's elements. -/
theorem quantile_mem_of_eq {s : List ℚ} (hs : List.Sorted (· ≤ ·) s)
    (hne : s ≠ [])
    (hQ : interpAt s (1/4 * ((s.length : ℚ) - 1)) =
      interpAt s (3/4 * ((s.length : ℚ) - 1))) :
    interpAt s (1/4 * ((s.length : ℚ) - 1)) ∈ s := by
  have hn1 : 1 ≤ s.length := List.length_pos.mpr hne
  have hx : (0:ℚ) ≤ (s.length : ℚ) - 1 := by
    have : (1:ℚ) ≤ (s.length : ℚ) := by exact_mod_cast hn1
    linarith
  have h0a : 0 ≤ 1/4 * ((s.length : ℚ) - 1) := by positivity
  have h0b : 0 ≤ 3/4 * ((s.length : ℚ) - 1) := by positivity
  have hab : 1/4 * ((s.length : ℚ) - 1) ≤ 3/4 * ((s.length : ℚ) - 1) := by
    nlinarith
  have hbn : 3/4 * ((s.length : ℚ) - 1) ≤ (s.length : ℚ) - 1 := by nlinarith
  have hjlt : ⌊3/4 * ((s.length : ℚ) - 1)⌋.toNat < s.length :=
    toNat_floor_lt_len hbn hn1
  have hmono : ⌊1/4 * ((s.length : ℚ) - 1)⌋.toNat
      ≤ ⌊3/4 * ((s.length : ℚ) - 1)⌋.toNat := toNat_floor_mono hab
  have hilt : ⌊1/4 * ((s.length : ℚ) - 1)⌋.toNat < s.length :=
    lt_of_le_of_lt hmono hjlt
  by_cases hij : ⌊1/4 * ((s.length : ℚ) - 1)⌋.toNat
      = ⌊3/4 * ((s.length : ℚ) - 1)⌋.toNat
  · by_cases hb1 : ⌊1/4 * ((s.length : ℚ) - 1)⌋.toNat + 1 < s.length
    · by_cases hab2 : (1:ℚ)/4 * ((s.length : ℚ) - 1)
          = 3/4 * ((s.length : ℚ) - 1)
      · have hx0 : (s.length : ℚ) - 1 = 0 := by linarith
        have hlen1 : s.length = 1 := by
          have : (s.length : ℚ) = 1 := by linarith
          exact_mod_cast this
        rw [hlen1] at hb1
        have : ⌊1/4 * ((s.length : ℚ) - 1)⌋.toNat = 0 := by
          rw [hx0]
          norm_num
        omega
      · have hd0 : s.getD (⌊1/4 * ((s.length : ℚ) - 1)⌋.toNat + 1) 0
            - s.getD (⌊1/4 * ((s.length : ℚ) - 1)⌋.toNat) 0 = 0 := by
          unfold interpAt at hQ
          rw [if_pos hb1, ← hij, if_pos hb1] at hQ
          have hd : s.getD (⌊1/4 * ((s.length : ℚ) - 1)⌋.toNat) 0
              ≤ s.getD (⌊1/4 * ((s.length : ℚ) - 1)⌋.toNat + 1) 0 :=
            getD_sorted_mono hs (Nat.le_succ _) hb1
          have hablt : (1:ℚ)/4 * ((s.length : ℚ) - 1)
              < 3/4 * ((s.length : ℚ) - 1) := lt_of_le_of_ne hab hab2
          nlinarith [hQ]
        unfold interpAt
        rw [if_pos hb1, hd0, mul_zero, add_zero]
        exact getD_mem hilt
    · unfold interpAt
      rw [if_neg hb1]
      exact getD_mem hilt
  · have hlt2 : ⌊1/4 * ((s.length : ℚ) - 1)⌋.toNat
        < ⌊3/4 * ((s.length : ℚ) - 1)⌋.toNat := lt_of_le_of_ne hmono hij
    have h1 : ⌊1/4 * ((s.length : ℚ) - 1)⌋.toNat + 1 < s.length := by omega
    have c1 := interp_le_right hs h0a h1
    have c2 : s.getD (⌊1/4 * ((s.length : ℚ) - 1)⌋.toNat + 1) 0
        ≤ s.getD (⌊3/4 * ((s.length : ℚ) - 1)⌋.toNat) 0 :=
      getD_sorted_mono hs (by omega) hjlt
    have c3 := interp_left_le hs h0b hjlt
    have heq : interpAt s (1/4 * ((s.length : ℚ) - 1))
        = s.getD (⌊1/4 * ((s.length : ℚ) - 1)⌋.toNat + 1) 0 := by
      apply le_antisymm c1
      rw [hQ]
      exact le_trans c2 c3
    rw [heq]
    exact getD_mem h1

theorem colQ1_le_colQ3 {t : Table} {c : String} (hne : colNums t c ≠ []) :
    colQ1 t c ≤ colQ3 t c := by
  unfold colQ1 colQ3 quantileLin
  have hsort : List.Sorted (· ≤ ·) ((colNums t c).insertionSort (· ≤ ·)) :=
    List.sorted_insertionSort _ _
  have hlen : ((colNums t c).insertionSort (· ≤ ·)).length
      = (colNums t c).length := (List.perm_insertionSort _ _).length_eq
  have hn1 : 1 ≤ (colNums t c).length := List.length_pos.mpr hne
  have hx : (0:ℚ) ≤ ((colNums t c).length : ℚ) - 1 := by
    have : (1:ℚ) ≤ ((colNums t c).length : ℚ) := by exact_mod_cast hn1
    linarith
  apply interpAt_mono hsort
  · positivity
  · nlinarith
  · rw [hlen]
    nlinarith

theorem colQ1_mem_of_iqr_zero {t : Table} {c : String}
    (hne : colNums t c ≠ []) (hQ : colQ3 t c = colQ1 t c) :
    colQ1 t c ∈ colNums t c := by
  have hsort : List.Sorted (· ≤ ·) ((colNums t c).insertionSort (· ≤ ·)) :=
    List.sorted_insertionSort _ _
  have hlen : ((colNums t c).insertionSort (· ≤ ·)).length
      = (colNums t c).length := (List.perm_insertionSort _ _).length_eq
  have hsne : (colNums t c).insertionSort (· ≤ ·) ≠ [] := by
    intro h
    apply hne
    rw [h] at hlen
    exact (List.length_eq_zero.mp hlen.symm)
  unfold colQ1 quantileLin
  have hmem := quantile_mem_of_eq hsort hsne (by
    rw [hlen]
    exact hQ.symm)
  rw [hlen] at hmem
  exact (List.perm_insertionSort (· ≤ ·) (colNums t c)).mem_iff.mp hmem

/-- C7: for a nonempty numeric column, the clipping bounds satisfy
`lowB ≤ upB` (because `Q1 ≤ Q3` under linear-interpolation quantiles);
each numeric value `v` becomes `min upB (max lowB v)`, which lies in
`[lowB, upB]`, equals `lowB` when `v < lowB`, `upB` when `v > upB`,
and `v` itself when `v` is within bounds; and when `IQR = 0` every
value is clipped to the single value `Q1 = Q3`, which is one of the
column's observed values, without error. -/
theorem C7_outlier_clipping (t : Table) (c : String) (hc : c ∈ t.cols)
    (hnum : isNumCol t c = true) (hne : colNums t c ≠ []) :
    lowB t c ≤ upB t c ∧
    colQ1 t c ≤ colQ3 t c ∧
    (∀ i < t.rows.length, ∀ v : ℚ, cellAt t i c = .num v →
      cellAt (clipStage t) i c = .num (min (upB t c) (max (lowB t c) v)) ∧
      lowB t c ≤ min (upB t c) (max (lowB t c) v) ∧
      min (upB t c) (max (lowB t c) v) ≤ upB t c ∧
      (v < lowB t c → min (upB t c) (max (lowB t c) v) = lowB t c) ∧
      (upB t c < v → min (upB t c) (max (lowB t c) v) = upB t c) ∧
      (lowB t c ≤ v → v ≤ upB t c →
        min (upB t c) (max (lowB t c) v) = v)) ∧
    (colQ3 t c = colQ1 t c →
      colQ1 t c ∈ colNums t c ∧
      ∀ i < t.rows.length, ∀ v : ℚ, cellAt t i c = .num v →
        cellAt (clipStage t) i c = .num (colQ1 t c)) := by
  have hQ13 : colQ1 t c ≤ colQ3 t c := colQ1_le_colQ3 hne
  have hlu : lowB t c ≤ upB t c := by
    unfold lowB upB
    linarith
  have hcond : (isNumCol t c && !(colNums t c).isEmpty) = true := by
    rw [hnum]
    simp [hne]
  have hcellClip : ∀ i < t.rows.length, ∀ v : ℚ, cellAt t i c = .num v →
      cellAt (clipStage t) i c =
        .num (min (upB t c) (max (lowB t c) v)) := by
    intro i hi v hv
    rw [show clipStage t = ⟨t.cols, t.rows.map (fun r =>
      mkRow t.cols (fun c =>
        if isNumCol t c && !(colNums t c).isEmpty then
          clipValue (lowB t c) (upB t c) (getCell r c)
        else getCell r c))⟩ from rfl]
    rw [cellAt_mapMk hi hc]
    rw [cellAt_eq_getCell] at hv
    rw [hv, if_pos hcond]
    rfl
  refine ⟨hlu, hQ13, ?_, ?_⟩
  · intro i hi v hv
    refine ⟨hcellClip i hi v hv, le_min hlu (le_max_left _ _),
      min_le_left _ _, ?_, ?_, ?_⟩
    · intro hlt
      rw [max_eq_left (le_of_lt hlt), min_eq_right hlu]
    · intro hgt
      rw [max_eq_right (le_of_lt (lt_of_le_of_lt hlu hgt)),
        min_eq_left (le_of_lt hgt)]
    · intro h1 h2
      rw [max_eq_right h1, min_eq_right h2]
  · intro hQ
    have hlo : lowB t c = colQ1 t c := by
      unfold lowB
      rw [hQ]
      ring
    have hhi : upB t c = colQ1 t c := by
      unfold upB
      rw [hQ]
      ring
    refine ⟨colQ1_mem_of_iqr_zero hne hQ, ?_⟩
    intro i hi v hv
    rw [hcellClip i hi v hv, hlo, hhi]
    congr 1
    exact min_eq_left (le_max_left _ _)

/-- C7 witness: on the column `[0, 2]` the bounds are `[-1, 3]`; on the
ten-value column of `T5` the two outliers 100 and 200 are both clipped
to the upper bound 24 while in-range values are unchanged. -/
theorem C7_witness :
    lowB T1 "a" ≤ upB T1 "a" ∧
    lowB T1 "a" = -1 ∧ upB T1 "a" = 3 ∧
    upB T5 "a" = 24 ∧
    cellAt (clipStage T5) 8 "a" = .num 24 ∧
    cellAt (clipStage T5) 9 "a" = .num 24 ∧
    cellAt (clipStage T5) 0 "a" = .num 0 :=
  ⟨(C7_outlier_clipping T1 "a" (by decide) (by decide) (by decide)).1,
    rfl, rfl, rfl, rfl, rfl, rfl⟩
